import Mathlib

/-!
Shallow embedding of the pants-api-server ingestion, deduplication and
hybrid-retrieval core, and proofs about it.

Sources embedded:
* `chunkText`, `hashContent`, `processArchiveWithSharedEmbeddings`
  (gemini-embeddings module);
* `archiveSinglePage`, `checkForDuplicates`, `processPocketImport`
  (pocket-import module);
* the grouping / sorting / truncation tail of the `POST /api/search` handler
  (server.js).

Modelling conventions:
* Text is `List Char`; JS string indices are `Nat`, JS `lastIndexOf` results
  are `Int` (so that the sentinel `-1` is representable).
* Machine floats that are only compared (`relevance_score`, `similarity`)
  are modelled as `Rat`; embedding vectors, whose values are never inspected,
  as `List Int`.
* I/O collaborators (extractor, embedding provider, store failures) are
  oracle functions carried in an environment record; the store is explicit
  state threaded through each operation.  Concurrent batches are modelled by
  their sequential (interleaving-free) semantics: within a batch the items
  are processed in array order, which is also the order in which
  `Promise.allSettled` delivers their results.
* The JS `while` loops are embedded with explicit fuel so that every
  definition is total and executable; a `none` result means the source loop
  has not finished within the given fuel.
-/

/-! ## JS string primitives -/

/-- JS `String.prototype.trim` whitespace test, restricted to the ASCII
whitespace characters that can occur in the texts of this development. -/
def isJsWS (c : Char) : Bool :=
  c = ' ' || c = '\n' || c = '\t' || c = '\r'

/-- JS `s.trim()`: strip whitespace from both ends. -/
def jsTrim (s : List Char) : List Char :=
  ((s.dropWhile isJsWS).reverse.dropWhile isJsWS).reverse

/-- Does `pat` occur in `text` starting exactly at index `i`?  (The match must
fit inside the string, as in JS `lastIndexOf`.) -/
def matchesAt (text pat : List Char) (i : Nat) : Bool :=
  decide ((text.drop i).take pat.length = pat)

/-- JS `text.lastIndexOf(pat, fromIdx)`: the largest start index `≤ fromIdx`
at which `pat` occurs, or `-1`. -/
def jsLastIndexOf (text pat : List Char) : Nat → Int
  | 0 => if matchesAt text pat 0 then 0 else -1
  | n + 1 => if matchesAt text pat (n + 1) then ((n : Int) + 1) else jsLastIndexOf text pat n

/-! ## Chunker (gemini-embeddings `chunkText`) -/

/-- One emitted chunk: `{content, index}`. -/
structure Chunk where
  content : List Char
  index : Nat
deriving DecidableEq

/-- The `endPosition` computed by one iteration of the
`while (position < text.length)` loop body of
`chunkText(text, chunkSize, overlap)`; the full body (see `chunkStep`) is:

``
let endPosition = Math.min(position + chunkSize, text.length)
if (endPosition < text.length) {
  const lastDoubleNewline = text.lastIndexOf('\n\n', endPosition)
  const lastPeriod = text.lastIndexOf('. ', endPosition)
  const lastNewline = text.lastIndexOf('\n', endPosition)
  let breakPoint = Math.max(lastDoubleNewline, lastPeriod, lastNewline)
  if (breakPoint > position + chunkSize/2) endPosition = breakPoint + 1
}
const chunkContent = text.slice(position, endPosition).trim()
if (chunkContent) chunks.push({content: chunkContent, index: chunks.length})
position = endPosition - overlap
if (position <= chunks.length * overlap) position = Math.max(endPosition, position + 1)
``

`breakPoint > position + chunkSize/2` is float arithmetic on integer operands,
rendered exactly as `2*breakPoint > 2*position + chunkSize` over `Int`.
The updated position is provably nonnegative (clamped case: `≥ endPosition`;
unclamped case: `> chunks.length * overlap ≥ 0`), so `Int.toNat` is faithful. -/
def chunkEnd (text : List Char) (cs : Nat) (pos : Nat) : Nat :=
  let e0 := min (pos + cs) text.length
  if e0 < text.length then
    let bp := max (jsLastIndexOf text ['\n', '\n'] e0)
      (max (jsLastIndexOf text ['.', ' '] e0) (jsLastIndexOf text ['\n'] e0))
    if 2 * bp > 2 * (pos : Int) + (cs : Int) then (bp + 1).toNat else e0
  else e0

/-- `if (chunkContent) chunks.push({content: chunkContent, index: chunks.length})`. -/
def chunkPush (acc : List Chunk) (content : List Char) : List Chunk :=
  if content.isEmpty then acc else acc ++ [⟨content, acc.length⟩]

/-- The position update, evaluated after the push (`chunksLen` is the length
of the updated accumulator). -/
def chunkNextPos (e ov chunksLen : Nat) : Nat :=
  let p1 : Int := (e : Int) - (ov : Int)
  let p2 : Int := if p1 ≤ (chunksLen : Int) * (ov : Int) then max (e : Int) (p1 + 1) else p1
  p2.toNat

def chunkStep (text : List Char) (cs ov : Nat) (pos : Nat) (acc : List Chunk) :
    Nat × List Chunk :=
  let e := chunkEnd text cs pos
  let acc' := chunkPush acc (jsTrim ((text.drop pos).take (e - pos)))
  (chunkNextPos e ov acc'.length, acc')

/-- The `while (position < text.length)` loop of `chunkText`, with fuel.
`none` means the loop has not finished within `fuel` iterations. -/
def chunkLoop (text : List Char) (cs ov : Nat) : Nat → Nat → List Chunk → Option (List Chunk)
  | 0, _, _ => none
  | fuel + 1, pos, acc =>
    if pos < text.length then
      let s := chunkStep text cs ov pos acc
      chunkLoop text cs ov fuel s.1 s.2
    else
      some acc

/-- `chunkText(text, chunkSize, overlap)` of the gemini-embeddings module,
with fuel bounding the number of loop iterations. -/
def chunkTextFuel (text : List Char) (cs ov : Nat) (fuel : Nat) : Option (List Chunk) :=
  chunkLoop text cs ov fuel 0 []

/-! ## Import pipeline (pocket-import module) -/

/-- One parsed input row that survived CSV filtering (`url` nonempty,
HTTP scheme).  Only the fields that influence the modelled behaviour are
kept; `tags`/`timeAdded` ride along unchanged in the source. -/
structure Item where
  url : String
  title : String
deriving DecidableEq

/-- The archives table, reduced to its dedup key: insertion-ordered
`(user_id, url)` pairs. -/
abbrev ArchiveStore := List (String × String)

/-- Oracles for the import pipeline's collaborators:
* `ex url`: the extraction collaborator (Firecrawl + fallback); `.error e`
  models a raised extraction error with message `e`, `.ok t` a successful
  extraction.
* `insertFails url`: `some e` models a Supabase insert error for that URL.
* `dupQueryFails i`: whether the `i`-th batched duplicate-check query
  errors (the source then skips that batch, fail-open). -/
structure Env where
  ex : String → Except String String
  insertFails : String → Option String
  dupQueryFails : Nat → Bool

/-- The plain result object `archiveSinglePage` resolves with. -/
structure SingleResult where
  success : Bool
  skipped : Bool
  archive : Option String
  url : Option String
  error : Option String
deriving DecidableEq

/-- `archiveSinglePage(url, userId, ...)`.  The whole JS body is wrapped in
`try { ... } catch (error) { return {success:false, url, error} }`, so the
function always resolves; the three outcomes are:
* the final safety check finds an existing `(user_id, url)` row: resolve
  `{success:true, skipped:true, archive}` without inserting;
* extraction raises: the catch returns `{success:false, url, error}`;
* the insert errors (`throw insertError`): same catch path;
* otherwise insert the archive row and resolve `{success:true, archive}`.
The third component counts extraction attempts performed (0 when skipped). -/
def archiveSinglePage (env : Env) (store : ArchiveStore) (uid url : String) :
    ArchiveStore × SingleResult × Nat :=
  if (uid, url) ∈ store then
    (store, ⟨true, true, some url, none, none⟩, 0)
  else
    match env.ex url with
    | .error e => (store, ⟨false, false, none, some url, some e⟩, 1)
    | .ok _t =>
      match env.insertFails url with
      | some e => (store, ⟨false, false, none, some url, some e⟩, 1)
      | none => (store ++ [(uid, url)], ⟨true, false, some url, none, none⟩, 1)

/-- `archiveSinglePage` as the awaited promise seen by the caller's
`try`/`catch`: it never rejects, so it is always `.ok`. -/
def archiveSinglePageE (env : Env) (store : ArchiveStore) (uid url : String) :
    Except String (ArchiveStore × SingleResult × Nat) :=
  .ok (archiveSinglePage env store uid url)

/-- The per-item retry loop of `processPocketImport`:

``
while (retries <= maxRetries) {
  try { result = await archiveSinglePage(...); break }
  catch (error) {
    retries++
    if (retries <= maxRetries) { sleep(delayBetweenRequests * retries) }
    else { result = {success:false, url, error} }
  }
}
``

Fuel is `maxRetries + 1 - retries` at entry, so the `fuel = 0` arm
(JS `result` still `null` after the loop) is unreachable. -/
def runItemGo (env : Env) (store : ArchiveStore) (uid : String) (item : Item) (mr : Nat) :
    Nat → Nat → ArchiveStore × SingleResult × Nat
  | 0, _ => (store, ⟨false, false, none, some item.url, some "null result"⟩, 0)
  | fuel + 1, retries =>
    match archiveSinglePageE env store uid item.url with
    | .ok r => r
    | .error e =>
      if retries + 1 ≤ mr then
        runItemGo env store uid item mr fuel (retries + 1)
      else
        (store, ⟨false, false, none, some item.url, some e⟩, 0)

/-- One input item driven through the retry loop (`retries` starts at 0). -/
def runItem (env : Env) (store : ArchiveStore) (uid : String) (item : Item) (mr : Nat) :
    ArchiveStore × SingleResult × Nat :=
  runItemGo env store uid item mr (mr + 1) 0

/-- The batched existence query of `checkForDuplicates`: slices the URL list
into batches of 100, queries each batch (`.in('url', batch)`), accumulates
the URLs found; an erroring batch contributes nothing (`continue`,
fail-open).  Fuel is the list length at entry, so the `fuel = 0` arm on a
nonempty list is unreachable. -/
def collectExistingGo (env : Env) (store : ArchiveStore) (uid : String) :
    Nat → Nat → List String → List String
  | 0, _, _ => []
  | _fuel + 1, _i, [] => []
  | fuel + 1, i, u :: rest =>
    let batch := (u :: rest).take 100
    let found := if env.dupQueryFails i then [] else
      batch.filter (fun x => decide ((uid, x) ∈ store))
    found ++ collectExistingGo env store uid fuel (i + 1) ((u :: rest).drop 100)

/-- The `existingUrls` set built by `checkForDuplicates`. -/
def collectExisting (env : Env) (store : ArchiveStore) (uid : String) (urls : List String) :
    List String :=
  collectExistingGo env store uid urls.length 0 urls

/-- `checkForDuplicates(urls, userId)`: partition the items into
`{newUrls, duplicates}` by membership of their URL in `existingUrls`. -/
def checkForDuplicates (env : Env) (store : ArchiveStore) (items : List Item) (uid : String) :
    List Item × List Item :=
  let existing := collectExisting env store uid (items.map Item.url)
  (items.filter (fun it => !(decide (it.url ∈ existing))),
   items.filter (fun it => decide (it.url ∈ existing)))

/-- The accumulated `results` object of `processPocketImport`. -/
structure ImportSummary where
  total : Nat
  successful : Nat
  failed : Nat
  skipped : Nat
  duplicates : Nat
  results : List SingleResult
deriving DecidableEq

/-- Folding one fulfilled batch promise into the summary
(lines `if (result.success) { if (result.skipped) ... } else ...` plus
`results.results.push(result)`); the store is threaded, and extraction
attempts are accumulated for the instrumentation. -/
def importStep (env : Env) (uid : String) (mr : Nat)
    (st : ArchiveStore × ImportSummary × Nat) (item : Item) :
    ArchiveStore × ImportSummary × Nat :=
  let (store, s, att) := st
  let (store', r, a) := runItem env store uid item mr
  (store',
   { s with
     successful := if r.success && !r.skipped then s.successful + 1 else s.successful
     skipped := if r.success && r.skipped then s.skipped + 1 else s.skipped
     failed := if !r.success then s.failed + 1 else s.failed
     results := s.results ++ [r] },
   att + a)

/-- `processPocketImport(urls, userId, options)`: duplicate partition, then
the new items processed through the retry loop.  The source slices
`urlsToProcess` into batches of `batchSize` purely to interleave delays and
progress callbacks; each batch is mapped in order and joined with
`Promise.allSettled`, whose results are folded back in the same order, so the
sequential semantics is the in-order fold over `newUrls` (the batch promises
never reject, so the rejected-promise arm of the fold is unreachable).
Returns the final store, the summary, and the total extraction attempts. -/
def processPocketImport (env : Env) (store : ArchiveStore) (items : List Item)
    (uid : String) (mr : Nat) : ArchiveStore × ImportSummary × Nat :=
  let part := checkForDuplicates env store items uid
  let init : ImportSummary :=
    { total := items.length, successful := 0, failed := 0,
      skipped := part.2.length, duplicates := part.2.length, results := [] }
  part.1.foldl (importStep env uid mr) (store, init, 0)

/-! ## Shared-embedding pipeline (gemini-embeddings module) -/

/-- Embedding vectors: only their presence matters here. -/
abbrev Vec := List Int

/-- Oracles for the embedding pipeline's collaborators:
* `gen text`: `generateEmbedding` — `none` models the provider returning no
  embedding (not configured, API error, rate limit);
* `rpcFails h i`: whether the `get_or_create_content` RPC errors for that
  content identity (the source logs and `continue`s). -/
structure EmbEnv where
  gen : List Char → Option Vec
  rpcFails : List Char → Nat → Bool

/-- A `content_embeddings` row. -/
structure ContentRow where
  id : Nat
  hash : List Char
  idx : Nat
  content : List Char
  embedding : Option Vec
deriving DecidableEq

/-- A `user_content` link row. -/
structure LinkRow where
  userId : String
  contentId : Nat
  archiveId : Nat
  tags : List String
deriving DecidableEq

/-- The content store and the user-content join table. -/
structure EmbState where
  content : List ContentRow
  links : List LinkRow
deriving DecidableEq

/-- An archive row as consumed by `processArchiveWithSharedEmbeddings`. -/
structure Archive where
  id : Nat
  userId : String
  url : List Char
  title : List Char
  description : List Char
  archivedText : List Char
  tags : List String

/-- `hashContent(url, content)` computes the SHA-256 hex digest of
`url + ":" + content`.  The digest is modelled by its preimage string, a
collision-free idealization that preserves determinism and the equality
structure of the digested input. -/
def hashContent (url content : List Char) : List Char :=
  url ++ ':' :: content

/-- The existence lookup `.eq('content_hash', h).eq('chunk_index', i).single()`. -/
def findContent (st : EmbState) (h : List Char) (i : Nat) : Option ContentRow :=
  st.content.find? (fun r => decide (r.hash = h) && decide (r.idx = i))

/-- The `user_content` upsert with `onConflict: 'user_id,content_id,archive_id'`:
a conflicting row is a no-op. -/
def upsertLink (links : List LinkRow) (l : LinkRow) : List LinkRow :=
  if links.any (fun x =>
      decide (x.userId = l.userId) && decide (x.contentId = l.contentId) &&
      decide (x.archiveId = l.archiveId)) then
    links
  else links ++ [l]

/-- Fresh row id for `get_or_create_content`'s create path. -/
def freshId (st : EmbState) : Nat := st.content.length

/-- The per-chunk body of the `for (const chunk of chunks)` loop of
`processArchiveWithSharedEmbeddings`: look the identity up; on a hit reuse
the existing id (no provider call); on a miss invoke `generateEmbedding`
(recorded in the log as `(hash, index)`), and only `if (embedding)` store
via the atomic `get_or_create_content` RPC (an RPC error `continue`s);
a `contentId`, when obtained, is linked to the user by the upsert. -/
def embedChunkStep (env : EmbEnv) (a : Archive) (st : EmbState)
    (log : List (List Char × Nat)) (c : Chunk) : EmbState × List (List Char × Nat) :=
  let h := hashContent a.url c.content
  match findContent st h c.index with
  | some row =>
    ({ st with links := upsertLink st.links ⟨a.userId, row.id, a.id, a.tags⟩ }, log)
  | none =>
    let log' := log ++ [(h, c.index)]
    match env.gen c.content with
    | none => (st, log')
    | some v =>
      if env.rpcFails h c.index then (st, log')
      else
        match findContent st h c.index with
        | some row =>
          ({ st with links := upsertLink st.links ⟨a.userId, row.id, a.id, a.tags⟩ }, log')
        | none =>
          ({ content := st.content ++ [⟨freshId st, h, c.index, c.content, some v⟩],
             links := upsertLink st.links ⟨a.userId, freshId st, a.id, a.tags⟩ }, log')

/-- The text handed to the chunker:
`` `${title}\n\n${description}\n\n${archived_text}` ``. -/
def fullTextOf (a : Archive) : List Char :=
  a.title ++ '\n' :: '\n' :: (a.description ++ '\n' :: '\n' :: a.archivedText)

/-- `processArchiveWithSharedEmbeddings(archive)`: chunk the combined text
with the default parameters `chunkText(fullText)` = `(1500, 300)`, then run
every chunk through `embedChunkStep`.  Returns the final state and the list
of provider invocations `(contentHash, chunkIndex)`; `none` when the
chunker does not finish within `fuel`. -/
def processArchive (env : EmbEnv) (st : EmbState) (a : Archive) (fuel : Nat) :
    Option (EmbState × List (List Char × Nat)) :=
  match chunkTextFuel (fullTextOf a) 1500 300 fuel with
  | none => none
  | some chunks => some (chunks.foldl (fun p c => embedChunkStep env a p.1 p.2 c) (st, []))

/-- A sequence of archive ingestions (possibly by different users) against
the shared content store, with the provider-invocation logs concatenated. -/
def processMany (env : EmbEnv) (st : EmbState) (archives : List Archive) (fuel : Nat) :
    Option (EmbState × List (List Char × Nat)) :=
  match archives with
  | [] => some (st, [])
  | a :: rest =>
    match processArchive env st a fuel with
    | none => none
    | some p =>
      match processMany env p.1 rest fuel with
      | none => none
      | some q => some (q.1, p.2 ++ q.2)

/-- The content identities present in a state. -/
def contentKeys (st : EmbState) : List (List Char × Nat) :=
  st.content.map (fun r => (r.hash, r.idx))

/-! ## Search handler grouping / ranking (server.js `POST /api/search`) -/

/-- One raw hit from the hybrid-search collaborator.  Only the fields that
determine grouping and ordering are modelled (`archived_text`, chunk content
and snippet inputs do not influence the order of the output groups). -/
structure SHit where
  archive_id : Option String
  hit_id : String
  relevance_score : Option Rat
  similarity : Option Rat
deriving DecidableEq

/-- One entry of `groupedResults`, reduced to the fields that determine the
final ordering. -/
structure SGroup where
  gid : String
  relevance_score : Rat
deriving DecidableEq

/-- JS `a || b` on an optional string (absent and `''` are falsy). -/
def jsOrStr (a : Option String) (b : String) : String :=
  match a with
  | some s => if s.isEmpty then b else s
  | none => b

/-- JS `a || b` on an optional number (absent and `0` are falsy). -/
def jsOrQ (a : Option Rat) (b : Rat) : Rat :=
  match a with
  | some x => if x = 0 then b else x
  | none => b

/-- `const archiveId = result.archive_id || result.id`. -/
def hitKey (h : SHit) : String := jsOrStr h.archive_id h.hit_id

/-- `relevance_score: result.relevance_score || result.similarity || 0`. -/
def hitScore (h : SHit) : Rat := jsOrQ h.relevance_score (jsOrQ h.similarity 0)

/-- The `for (const result of results)` grouping loop: a group is created at
the first hit of each archive id (later hits only append to
`matching_chunks`, which does not affect id or score).  `Object.values` on
the UUID-keyed `groupedResults` returns the groups in insertion order, so
the insertion-ordered association list is the faithful model. -/
def groupHits (hits : List SHit) : List SGroup :=
  hits.foldl (fun acc h =>
    if acc.any (fun g => decide (g.gid = hitKey h)) then acc
    else acc ++ [⟨hitKey h, hitScore h⟩]) []

/-- Stable insertion of a group into a descending-ordered list: the new
element goes in front of the first element whose score does not exceed it.
This is the unique behaviour of the ES2019 stable
`sort((a, b) => b.relevance_score - a.relevance_score)` on the insertion
order. -/
def insertDescRel (g : SGroup) : List SGroup → List SGroup
  | [] => [g]
  | h :: t =>
    if h.relevance_score ≤ g.relevance_score then g :: h :: t
    else h :: insertDescRel g t

/-- The stable descending sort by `relevance_score`. -/
def sortDesc : List SGroup → List SGroup
  | [] => []
  | h :: t => insertDescRel h (sortDesc t)

/-- The tail of the search handler:
`Object.values(groupedResults).sort((a,b) => b.relevance_score - a.relevance_score).slice(0, limit)`. -/
def searchResults (hits : List SHit) (limit : Nat) : List SGroup :=
  (sortDesc (groupHits hits)).take limit

/-- The sequence of first occurrences of archive keys in the collaborator's
hit sequence (what the spec calls "first-seen order"); stated from the
spec's wording, for comparison with the grouping fold of the handler. -/
def firstSeenKeys (hits : List SHit) : List String :=
  hits.foldl (fun ks h => if ks.contains (hitKey h) then ks else ks ++ [hitKey h]) []


/-! ## Chunker lemmas -/

/-- `chunkStep` either leaves the accumulator alone (empty trimmed chunk) or
appends exactly one chunk carrying index `acc.length`. -/
theorem chunkStep_acc_shape (text : List Char) (cs ov pos : Nat) (acc : List Chunk) :
    (chunkStep text cs ov pos acc).2 = acc ∨
    ∃ c, (chunkStep text cs ov pos acc).2 = acc ++ [⟨c, acc.length⟩] := by
  dsimp only [chunkStep, chunkPush]
  split
  · exact Or.inl rfl
  · exact Or.inr ⟨_, rfl⟩

/-- A nonempty trimmed text: a text containing a non-whitespace character
does not trim to the empty list. -/
theorem jsTrim_ne_nil (s : List Char) (c : Char) (hc : c ∈ s) (hw : isJsWS c = false) :
    jsTrim s ≠ [] := by
  intro h
  have h1 : (s.dropWhile isJsWS).reverse.dropWhile isJsWS = [] := by
    have := congrArg List.reverse h
    simpa [jsTrim] using this
  have h2 : ∀ x ∈ (s.dropWhile isJsWS).reverse, isJsWS x :=
    List.dropWhile_eq_nil_iff.mp h1
  have hcd : c ∈ s.dropWhile isJsWS := by
    rcases List.mem_append.mp ((List.takeWhile_append_dropWhile isJsWS s) ▸ hc) with h' | h'
    · exact absurd (List.mem_takeWhile_imp h') (by simp [hw])
    · exact h'
  have := h2 c (List.mem_reverse.mpr hcd)
  simp [hw] at this

/-- Loop invariant for C6: the accumulator always carries indices
`0..length-1`, and the loop preserves this. -/
theorem chunkLoop_indices (text : List Char) (cs ov : Nat) :
    ∀ fuel pos acc res, acc.map Chunk.index = List.range acc.length →
      chunkLoop text cs ov fuel pos acc = some res →
      res.map Chunk.index = List.range res.length := by
  intro fuel
  induction fuel with
  | zero => intro pos acc res _ h; simp [chunkLoop] at h
  | succ n ih =>
    intro pos acc res hacc h
    rw [chunkLoop] at h
    by_cases hp : pos < text.length
    · rw [if_pos hp] at h
      refine ih _ _ _ ?_ h
      rcases chunkStep_acc_shape text cs ov pos acc with hs | ⟨c, hs⟩
      · rw [hs]; exact hacc
      · rw [hs]; simp [List.range_succ, hacc]
    · rw [if_neg hp] at h
      cases h
      exact hacc

/-- C6: For every input text and chunk parameters, whenever the chunker
returns (the loop finishes within the given fuel), the emitted chunks carry
indices exactly `0..n-1` in emission order. -/
theorem chunk_indices_contiguous (text : List Char) (cs ov fuel : Nat) (res : List Chunk)
    (h : chunkTextFuel text cs ov fuel = some res) :
    res.map Chunk.index = List.range res.length :=
  chunkLoop_indices text cs ov fuel 0 [] res (by simp) h

/-- Witness for C6 at a concrete input: `chunkText("ab", 1, 0)` returns two
chunks with indices `[0, 1] = range 2`. -/
theorem chunk_indices_contiguous_witness :
    [Chunk.mk ['a'] 0, Chunk.mk ['b'] 1].map Chunk.index =
      List.range [Chunk.mk ['a'] 0, Chunk.mk ['b'] 1].length :=
  chunk_indices_contiguous "ab".toList 1 0 3 [Chunk.mk ['a'] 0, Chunk.mk ['b'] 1] (by decide)

/-- C7 (counterexample): `chunkText("abcdefghij", 20, 3)` — a nonempty
10-character text, shorter than the chunk size 20 — terminates with THREE
chunks (`["abcdefghij", "hij", "hij"]`), not one; and the whitespace-only
text `" "` with `chunkSize = 2, overlap = 1` yields ZERO chunks. -/
theorem short_text_single_chunk_counterexample :
    ("abcdefghij".toList ≠ [] ∧ "abcdefghij".toList.length < 20 ∧
      (chunkTextFuel "abcdefghij".toList 20 3 10).map List.length = some 3) ∧
    (" ".toList ≠ [] ∧ " ".toList.length < 2 ∧
      chunkTextFuel " ".toList 2 1 5 = some []) := by
  constructor
  · refine ⟨by decide, by decide, ?_⟩
    have : chunkTextFuel "abcdefghij".toList 20 3 10 =
        some [⟨"abcdefghij".toList, 0⟩, ⟨"hij".toList, 1⟩, ⟨"hij".toList, 2⟩] := by decide
    rw [this]; rfl
  · exact ⟨by decide, by decide, by decide⟩

/-- C7 (amended): for every nonempty input text that contains a
non-whitespace character, whose length is strictly less than `chunkSize`,
and with `overlap = 0`, the chunker terminates (two loop iterations suffice)
and returns exactly one chunk, the trimmed text at index 0.  (With positive
overlap the tail re-emission can produce extra chunks, and a whitespace-only
text produces zero chunks — see the counterexample.) -/
theorem short_text_single_chunk (text : List Char) (cs : Nat) (c : Char)
    (hc : c ∈ text) (hw : isJsWS c = false) (hlen : text.length < cs) :
    chunkTextFuel text cs 0 2 = some [⟨jsTrim text, 0⟩] := by
  have hne : text ≠ [] := by rintro rfl; simp at hc
  have hpos : 0 < text.length := List.length_pos.mpr hne
  have hE : chunkEnd text cs 0 = text.length := by
    dsimp only [chunkEnd]
    rw [min_eq_right (by omega : text.length ≤ 0 + cs)]
    rw [if_neg (lt_irrefl text.length)]
  have hno : (jsTrim text).isEmpty = false := by
    cases h : jsTrim text with
    | nil => exact absurd h (jsTrim_ne_nil text c hc hw)
    | cons a l => rfl
  have hstep : chunkStep text cs 0 0 [] = (text.length, [⟨jsTrim text, 0⟩]) := by
    dsimp only [chunkStep]
    rw [hE]
    have hcontent : jsTrim ((text.drop 0).take (text.length - 0)) = jsTrim text := by simp
    rw [hcontent, chunkPush, hno]
    simp only [Bool.false_eq_true, if_false, List.nil_append, List.length_nil]
    have hnp : chunkNextPos text.length 0 [(⟨jsTrim text, 0⟩ : Chunk)].length = text.length := by
      dsimp only [chunkNextPos]
      rw [if_neg (by push_cast; omega)]
      push_cast
      omega
    rw [hnp]
  rw [chunkTextFuel, chunkLoop, if_pos hpos, hstep]
  dsimp only
  rw [chunkLoop, if_neg (lt_irrefl _)]

/-- Witness for the amended C7 at a concrete input: `chunkText("x", 2, 0)`
returns exactly the single chunk `"x"` at index 0. -/
theorem short_text_single_chunk_witness :
    chunkTextFuel "x".toList 2 0 2 = some [⟨jsTrim "x".toList, 0⟩] :=
  short_text_single_chunk "x".toList 2 'x' (by decide) (by decide) (by decide)

/-- The loop state reached by `chunkText("a␣␣", 1, 1)` after two iterations
is a fixed point of the loop body: `position` stays at 2 (the trimmed chunk
is empty so `chunks.length` stays 1, and the clamp condition
`position <= chunks.length * overlap` is false), violating the guaranteed
strict increase. -/
theorem chunkStep_fixed_point :
    chunkStep "a  ".toList 1 1 2 [⟨['a'], 0⟩] = (2, [⟨['a'], 0⟩]) := by decide

/-- C5: the chunker does NOT terminate for every input: on the 3-character
text `"a␣␣"` (an `'a'` followed by two spaces) with `chunkSize = 1,
overlap = 1`, the `while` loop never finishes, for any amount of fuel —
`position` gets stuck at 2 and never strictly increases again. -/
theorem chunkText_infinite_loop :
    ∀ fuel, chunkTextFuel "a  ".toList 1 1 fuel = none := by
  have stuck : ∀ fuel, chunkLoop "a  ".toList 1 1 fuel 2 [⟨['a'], 0⟩] = none := by
    intro fuel
    induction fuel with
    | zero => rfl
    | succ n ih =>
      rw [chunkLoop, if_pos (by decide : 2 < "a  ".toList.length), chunkStep_fixed_point]
      exact ih
  intro fuel
  match fuel with
  | 0 => rfl
  | 1 => decide
  | (n + 2) =>
    rw [chunkTextFuel, chunkLoop, if_pos (by decide : 0 < "a  ".toList.length)]
    rw [show chunkStep "a  ".toList 1 1 0 [] = (1, [⟨['a'], 0⟩]) from by decide]
    dsimp only
    rw [chunkLoop, if_pos (by decide : 1 < "a  ".toList.length)]
    rw [show chunkStep "a  ".toList 1 1 1 [⟨['a'], 0⟩] = (2, [⟨['a'], 0⟩]) from by decide]
    exact stuck n

/-! ## Search ranking lemmas -/

/-- Membership in a stable insertion. -/
theorem mem_insertDescRel (g x : SGroup) (l : List SGroup) :
    x ∈ insertDescRel g l ↔ x = g ∨ x ∈ l := by
  induction l with
  | nil => simp [insertDescRel]
  | cons h t ih =>
    dsimp only [insertDescRel]
    split
    · simp
    · simp only [List.mem_cons, ih]
      tauto

/-- Stable insertion preserves the descending-score ordering. -/
theorem pairwise_insertDescRel (g : SGroup) (l : List SGroup)
    (h : l.Pairwise (fun a b => b.relevance_score ≤ a.relevance_score)) :
    (insertDescRel g l).Pairwise (fun a b => b.relevance_score ≤ a.relevance_score) := by
  induction l with
  | nil => simp [insertDescRel]
  | cons hd t ih =>
    dsimp only [insertDescRel]
    rcases List.pairwise_cons.mp h with ⟨hhd, ht⟩
    split
    · rename_i hle
      refine List.pairwise_cons.mpr ⟨?_, h⟩
      intro y hy
      rcases List.mem_cons.mp hy with rfl | hy
      · exact hle
      · exact le_trans (hhd y hy) hle
    · rename_i hgt
      refine List.pairwise_cons.mpr ⟨?_, ih ht⟩
      intro y hy
      rcases (mem_insertDescRel g y t).mp hy with rfl | hy
      · exact le_of_not_le hgt
      · exact hhd y hy

/-- The stable sort produces a descending-score list. -/
theorem sortDesc_pairwise (l : List SGroup) :
    (sortDesc l).Pairwise (fun a b => b.relevance_score ≤ a.relevance_score) := by
  induction l with
  | nil => simp [sortDesc]
  | cons h t ih => exact pairwise_insertDescRel h (sortDesc t) ih

/-- Filtering an equal-score class through a stable insertion: the inserted
element lands in front of its class (every element it jumps over has a
strictly larger score). -/
theorem filter_insertDescRel (q : Rat) (g : SGroup) (l : List SGroup) :
    (insertDescRel g l).filter (fun x => decide (x.relevance_score = q)) =
      if g.relevance_score = q then
        g :: l.filter (fun x => decide (x.relevance_score = q))
      else l.filter (fun x => decide (x.relevance_score = q)) := by
  induction l with
  | nil =>
    dsimp only [insertDescRel]
    rw [List.filter_cons, List.filter_nil]
    by_cases hg : g.relevance_score = q <;> simp [hg]
  | cons h t ih =>
    dsimp only [insertDescRel]
    split
    · by_cases hg : g.relevance_score = q <;> simp [List.filter_cons, hg]
    · rename_i hgt
      by_cases hg : g.relevance_score = q
      · have hh : ¬ (h.relevance_score = q) := by
          intro hhq
          exact hgt (by rw [hhq, hg])
        simp [List.filter_cons, hh, ih, hg]
      · simp [List.filter_cons, ih, hg]

/-- Stability of the sort: each equal-score class comes out of `sortDesc` in
its original relative order. -/
theorem filter_sortDesc (q : Rat) (l : List SGroup) :
    (sortDesc l).filter (fun x => decide (x.relevance_score = q)) =
      l.filter (fun x => decide (x.relevance_score = q)) := by
  induction l with
  | nil => rfl
  | cons h t ih =>
    dsimp only [sortDesc]
    rw [filter_insertDescRel]
    by_cases hh : h.relevance_score = q <;> simp [List.filter_cons, hh, ih]

/-- The grouping fold emits one group per archive key, in first-seen order. -/
theorem groupHits_keys (hits : List SHit) :
    (groupHits hits).map SGroup.gid = firstSeenKeys hits := by
  have main : ∀ (hs : List SHit) (acc : List SGroup),
      (hs.foldl (fun acc h =>
        if acc.any (fun g => decide (g.gid = hitKey h)) then acc
        else acc ++ [⟨hitKey h, hitScore h⟩]) acc).map SGroup.gid =
      hs.foldl (fun ks h => if ks.contains (hitKey h) then ks else ks ++ [hitKey h])
        (acc.map SGroup.gid) := by
    intro hs
    induction hs with
    | nil => intro acc; rfl
    | cons h t ih =>
      intro acc
      have hcond : (acc.map SGroup.gid).contains (hitKey h) =
          acc.any (fun g => decide (g.gid = hitKey h)) := by
        induction acc with
        | nil => rfl
        | cons a l ihl =>
          simp only [List.map_cons, List.contains_cons, List.any_cons, ihl]
          by_cases hk : a.gid = hitKey h
          · simp [hk]
          · simp [hk, beq_iff_eq, Ne.symm hk]
      simp only [List.foldl_cons]
      by_cases hc : acc.any (fun g => decide (g.gid = hitKey h)) = true
      · rw [if_pos hc, if_pos (by rw [hcond]; exact hc), ih]
      · rw [if_neg hc, if_neg (by rw [hcond]; simpa using hc), ih]
        simp
  exact main hits []

/-- C9: for a fixed collaborator output `hits` and a fixed `limit`, the
search handler's final result list is the stable descending sort of the
first-seen-ordered groups, truncated to `limit`: it is sorted by
`relevance_score` descending; every equal-score class of groups appears in
the sorted list in exactly its first-seen relative order (the grouping fold
emits one group per archive id, in first-seen order of the collaborator
sequence — `groupHits_keys`); and the output is the first `limit` entries of
the sorted list. -/
theorem search_ranking_stable_sorted (hits : List SHit) (limit : Nat) :
    searchResults hits limit = (sortDesc (groupHits hits)).take limit ∧
    (searchResults hits limit).Pairwise
      (fun a b => b.relevance_score ≤ a.relevance_score) ∧
    (∀ q : Rat, (sortDesc (groupHits hits)).filter (fun x => decide (x.relevance_score = q)) =
      (groupHits hits).filter (fun x => decide (x.relevance_score = q))) ∧
    (groupHits hits).map SGroup.gid = firstSeenKeys hits ∧
    (searchResults hits limit).length ≤ limit := by
  refine ⟨rfl, ?_, fun q => filter_sortDesc q (groupHits hits), groupHits_keys hits, ?_⟩
  · exact (sortDesc_pairwise (groupHits hits)).sublist (List.take_sublist _ _)
  · exact List.length_take_le _ _

/-! ## Import pipeline lemmas -/

/-- The retry loop collapses to a single `archiveSinglePage` call:
`archiveSinglePage` always resolves (never rejects), so the first iteration
always `break`s and the catch/retry branch is unreachable. -/
theorem runItem_eq_asp (env : Env) (store : ArchiveStore) (uid : String) (item : Item)
    (mr : Nat) : runItem env store uid item mr = archiveSinglePage env store uid item.url := rfl

/-- `archiveSinglePage` only ever appends its own `(user, url)` row. -/
theorem archiveSinglePage_store_mem (env : Env) (store : ArchiveStore) (uid url : String)
    (x : String × String) (hx : x ∈ store) :
    x ∈ (archiveSinglePage env store uid url).1 := by
  unfold archiveSinglePage
  by_cases hm : (uid, url) ∈ store
  · simpa [hm] using hx
  · cases hex : env.ex url with
    | error e => simpa [hm, hex] using hx
    | ok t =>
      cases hins : env.insertFails url with
      | some e => simpa [hm, hex, hins] using hx
      | none => simp [hm, hex, hins, List.mem_append, hx]

/-- After a successful-path call, the caller's `(user, url)` pair is in the
store (it either already was, or the insert added it). -/
theorem archiveSinglePage_self_mem (env : Env) (store : ArchiveStore) (uid url : String)
    (hex : ∃ t, env.ex url = .ok t) (hins : env.insertFails url = none) :
    (uid, url) ∈ (archiveSinglePage env store uid url).1 := by
  unfold archiveSinglePage
  by_cases hm : (uid, url) ∈ store
  · simp [hm]
  · obtain ⟨t, ht⟩ := hex
    simp [hm, ht, hins]

/-- The existence check before the insert preserves key uniqueness: a row is
only inserted when its `(user, url)` key is absent. -/
theorem archiveSinglePage_nodup (env : Env) (store : ArchiveStore) (uid url : String)
    (h : store.Nodup) : (archiveSinglePage env store uid url).1.Nodup := by
  unfold archiveSinglePage
  by_cases hm : (uid, url) ∈ store
  · simpa [hm] using h
  · cases hex : env.ex url with
    | error e => simpa [hm, hex] using h
    | ok t =>
      cases hins : env.insertFails url with
      | some e => simpa [hm, hex, hins] using h
      | none => simp [hm, hex, hins, List.nodup_append, h]

/-- One fold step of the batch-result loop, in terms of `archiveSinglePage`. -/
theorem importStep_components (env : Env) (uid : String) (mr : Nat) (store : ArchiveStore)
    (s : ImportSummary) (att : Nat) (it : Item) :
    importStep env uid mr (store, s, att) it =
      ((archiveSinglePage env store uid it.url).1,
       { s with
         successful := if (archiveSinglePage env store uid it.url).2.1.success &&
             !(archiveSinglePage env store uid it.url).2.1.skipped
           then s.successful + 1 else s.successful
         skipped := if (archiveSinglePage env store uid it.url).2.1.success &&
             (archiveSinglePage env store uid it.url).2.1.skipped
           then s.skipped + 1 else s.skipped
         failed := if !(archiveSinglePage env store uid it.url).2.1.success
           then s.failed + 1 else s.failed
         results := s.results ++ [(archiveSinglePage env store uid it.url).2.1] },
       att + (archiveSinglePage env store uid it.url).2.2) := by
  rcases hr : archiveSinglePage env store uid it.url with ⟨store', r, a⟩
  simp [importStep, runItem_eq_asp, hr]

/-- Store monotonicity of the item fold. -/
theorem foldl_importStep_mem (env : Env) (uid : String) (mr : Nat) :
    ∀ (l : List Item) (store : ArchiveStore) (s : ImportSummary) (att : Nat)
      (x : String × String), x ∈ store →
      x ∈ (l.foldl (importStep env uid mr) (store, s, att)).1 := by
  intro l
  induction l with
  | nil => intro store s att x hx; simpa using hx
  | cons it t ih =>
    intro store s att x hx
    rw [List.foldl_cons, importStep_components]
    exact ih _ _ _ x (archiveSinglePage_store_mem env store uid it.url x hx)

/-- Key-uniqueness preservation of the item fold. -/
theorem foldl_importStep_nodup (env : Env) (uid : String) (mr : Nat) :
    ∀ (l : List Item) (store : ArchiveStore) (s : ImportSummary) (att : Nat),
      store.Nodup → (l.foldl (importStep env uid mr) (store, s, att)).1.Nodup := by
  intro l
  induction l with
  | nil => intro store s att h; simpa using h
  | cons it t ih =>
    intro store s att h
    rw [List.foldl_cons, importStep_components]
    exact ih _ _ _ (archiveSinglePage_nodup env store uid it.url h)

/-- After the fold, every processed item's `(user, url)` pair is archived,
provided its extraction and insert succeed. -/
theorem foldl_importStep_covers (env : Env) (uid : String) (mr : Nat) :
    ∀ (l : List Item) (store : ArchiveStore) (s : ImportSummary) (att : Nat),
      (∀ it ∈ l, ∃ t, env.ex it.url = .ok t) →
      (∀ it ∈ l, env.insertFails it.url = none) →
      ∀ it ∈ l, (uid, it.url) ∈ (l.foldl (importStep env uid mr) (store, s, att)).1 := by
  intro l
  induction l with
  | nil => intro _ _ _ _ _ it hit; simp at hit
  | cons hd t ih =>
    intro store s att hex hins it hit
    rw [List.foldl_cons, importStep_components]
    rcases List.mem_cons.mp hit with rfl | hit'
    · exact foldl_importStep_mem env uid mr t _ _ _ _
        (archiveSinglePage_self_mem env store uid it.url
          (hex it (List.mem_cons_self _ _)) (hins it (List.mem_cons_self _ _)))
    · exact ih _ _ _ (fun x hx => hex x (List.mem_cons_of_mem _ hx))
        (fun x hx => hins x (List.mem_cons_of_mem _ hx)) it hit'

/-- Counter bookkeeping of the item fold: each processed item bumps exactly
one of `successful`/`failed`/`skipped` and appends exactly one entry to
`results`; `total` and `duplicates` are untouched. -/
theorem foldl_importStep_counters (env : Env) (uid : String) (mr : Nat) :
    ∀ (l : List Item) (store : ArchiveStore) (s : ImportSummary) (att : Nat),
      (l.foldl (importStep env uid mr) (store, s, att)).2.1.total = s.total ∧
      (l.foldl (importStep env uid mr) (store, s, att)).2.1.duplicates = s.duplicates ∧
      (l.foldl (importStep env uid mr) (store, s, att)).2.1.successful +
        (l.foldl (importStep env uid mr) (store, s, att)).2.1.failed +
        (l.foldl (importStep env uid mr) (store, s, att)).2.1.skipped =
        s.successful + s.failed + s.skipped + l.length ∧
      s.skipped ≤ (l.foldl (importStep env uid mr) (store, s, att)).2.1.skipped ∧
      (l.foldl (importStep env uid mr) (store, s, att)).2.1.results.length =
        s.results.length + l.length := by
  intro l
  induction l with
  | nil => intro store s att; simp
  | cons it t ih =>
    intro store s att
    rw [List.foldl_cons, importStep_components]
    rcases hr : archiveSinglePage env store uid it.url with ⟨store', r, a⟩
    obtain ⟨h1, h2, h3, h4, h5⟩ := ih store'
      { s with
        successful := if r.success && !r.skipped then s.successful + 1 else s.successful
        skipped := if r.success && r.skipped then s.skipped + 1 else s.skipped
        failed := if !r.success then s.failed + 1 else s.failed
        results := s.results ++ [r] } (att + a)
    refine ⟨by simpa using h1, by simpa using h2, ?_, ?_, ?_⟩
    · rw [h3]
      cases hsu : r.success <;> cases hsk : r.skipped <;>
        simp [hsu, hsk, List.length_cons] <;> omega
    · refine le_trans ?_ h4
      cases hsu : r.success <;> cases hsk : r.skipped <;> simp [hsu, hsk]
    · rw [h5]
      simp [List.length_append]
      omega

/-- The batched duplicate query, when no batch errors, finds exactly the
input URLs already archived for the user. -/
theorem collectExistingGo_spec (env : Env) (store : ArchiveStore) (uid : String)
    (hq : ∀ i, env.dupQueryFails i = false) :
    ∀ (fuel : Nat) (i : Nat) (urls : List String), urls.length ≤ fuel →
      ∀ u, u ∈ collectExistingGo env store uid fuel i urls ↔
        (u ∈ urls ∧ (uid, u) ∈ store) := by
  intro fuel
  induction fuel with
  | zero =>
    intro i urls hlen u
    have : urls = [] := List.length_eq_zero.mp (Nat.le_zero.mp hlen)
    subst this
    simp [collectExistingGo]
  | succ n ih =>
    intro i urls hlen u
    match urls with
    | [] => simp [collectExistingGo]
    | u0 :: rest =>
      rw [collectExistingGo]
      rw [hq i]
      simp only [Bool.false_eq_true, if_false, List.mem_append, List.mem_filter,
        decide_eq_true_eq]
      rw [ih (i + 1) ((u0 :: rest).drop 100) (by simp at hlen ⊢; omega) u]
      constructor
      · rintro (⟨hmem, hst⟩ | ⟨hmem, hst⟩)
        · exact ⟨(List.take_subset _ _) hmem, hst⟩
        · exact ⟨(List.drop_subset _ _) hmem, hst⟩
      · rintro ⟨hmem, hst⟩
        rw [← List.take_append_drop 100 (u0 :: rest)] at hmem
        rcases List.mem_append.mp hmem with h | h
        · exact Or.inl ⟨h, hst⟩
        · exact Or.inr ⟨h, hst⟩

/-- `checkForDuplicates` under error-free queries: membership of a URL in
the computed `existingUrls`. -/
theorem collectExisting_spec (env : Env) (store : ArchiveStore) (uid : String)
    (hq : ∀ i, env.dupQueryFails i = false) (urls : List String) (u : String) :
    u ∈ collectExisting env store uid urls ↔ (u ∈ urls ∧ (uid, u) ∈ store) :=
  collectExistingGo_spec env store uid hq urls.length 0 urls le_rfl u

/-- When every input item is already archived (and no query errors), the
partition declares everything a duplicate and nothing new. -/
theorem checkForDuplicates_all_dup (env : Env) (store : ArchiveStore) (items : List Item)
    (uid : String) (hq : ∀ i, env.dupQueryFails i = false)
    (hall : ∀ it ∈ items, (uid, it.url) ∈ store) :
    checkForDuplicates env store items uid = ([], items) := by
  have hmem : ∀ it ∈ items, it.url ∈ collectExisting env store uid (items.map Item.url) := by
    intro it hit
    exact (collectExisting_spec env store uid hq _ _).mpr
      ⟨List.mem_map.mpr ⟨it, hit, rfl⟩, hall it hit⟩
  have h1 : items.filter
      (fun it => !(decide (it.url ∈ collectExisting env store uid (items.map Item.url)))) = [] :=
    List.filter_eq_nil_iff.mpr (fun it hit => by simp [hmem it hit])
  have h2 : items.filter
      (fun it => decide (it.url ∈ collectExisting env store uid (items.map Item.url))) = items :=
    List.filter_eq_self.mpr (fun it hit => by simp [hmem it hit])
  simp only [checkForDuplicates]
  rw [h1, h2]

/-- Lengths of a complementary filter partition. -/
theorem filter_partition_length (l : List Item) (p : Item → Bool) :
    (l.filter (fun x => !(p x))).length + (l.filter p).length = l.length := by
  induction l with
  | nil => rfl
  | cons h t ih =>
    by_cases hp : p h <;> simp [List.filter_cons, hp] <;> omega

/-- Unfolding of `processPocketImport` to its partition-then-fold form. -/
theorem processPocketImport_def (env : Env) (store : ArchiveStore) (items : List Item)
    (uid : String) (mr : Nat) :
    processPocketImport env store items uid mr =
      (checkForDuplicates env store items uid).1.foldl (importStep env uid mr)
        (store,
         { total := items.length, successful := 0, failed := 0,
           skipped := (checkForDuplicates env store items uid).2.length,
           duplicates := (checkForDuplicates env store items uid).2.length,
           results := [] }, 0) := rfl

/-- The two partition components of `checkForDuplicates`, unfolded. -/
theorem checkForDuplicates_fst (env : Env) (store : ArchiveStore) (items : List Item)
    (uid : String) :
    (checkForDuplicates env store items uid).1 =
      items.filter (fun it =>
        !(decide (it.url ∈ collectExisting env store uid (items.map Item.url)))) := rfl

theorem checkForDuplicates_snd (env : Env) (store : ArchiveStore) (items : List Item)
    (uid : String) :
    (checkForDuplicates env store items uid).2 =
      items.filter (fun it =>
        decide (it.url ∈ collectExisting env store uid (items.map Item.url))) := rfl

/-- C1: dedup idempotence and the core dedup invariant.  When the
duplicate-check queries do not error and every item's extraction and insert
succeed, running the same import twice for the same user leaves the archive
store unchanged on the second run (zero new ArchiveRecords) and the second
run's summary has `duplicates = total`.  Moreover — unconditionally — a run
never creates two archive rows for the same `(user, url)` pair: key
uniqueness of the store is preserved by every run. -/
theorem dedup_idempotent_second_run (env : Env) (store : ArchiveStore) (items : List Item)
    (uid : String) (mr : Nat)
    (hq : ∀ i, env.dupQueryFails i = false)
    (hex : ∀ it ∈ items, ∃ t, env.ex it.url = .ok t)
    (hins : ∀ it ∈ items, env.insertFails it.url = none) :
    (processPocketImport env (processPocketImport env store items uid mr).1 items uid mr).1 =
      (processPocketImport env store items uid mr).1 ∧
    (processPocketImport env (processPocketImport env store items uid mr).1
        items uid mr).2.1.duplicates =
      (processPocketImport env (processPocketImport env store items uid mr).1
        items uid mr).2.1.total ∧
    (∀ (env' : Env) (store' : ArchiveStore) (items' : List Item) (uid' : String) (mr' : Nat),
      store'.Nodup → (processPocketImport env' store' items' uid' mr').1.Nodup) := by
  have hall : ∀ it ∈ items, (uid, it.url) ∈ (processPocketImport env store items uid mr).1 := by
    intro it hit
    rw [processPocketImport_def]
    by_cases hmem0 : (uid, it.url) ∈ store
    · exact foldl_importStep_mem env uid mr _ store _ 0 _ hmem0
    · have hnotex : ¬ (it.url ∈ collectExisting env store uid (items.map Item.url)) := by
        rw [collectExisting_spec env store uid hq]
        rintro ⟨_, h⟩
        exact hmem0 h
      have hin1 : it ∈ (checkForDuplicates env store items uid).1 := by
        rw [checkForDuplicates_fst]
        exact List.mem_filter.mpr ⟨hit, by simp [hnotex]⟩
      have hsub : ∀ x ∈ (checkForDuplicates env store items uid).1, x ∈ items := by
        intro x hx
        rw [checkForDuplicates_fst] at hx
        exact (List.mem_filter.mp hx).1
      exact foldl_importStep_covers env uid mr _ store _ 0
        (fun x hx => hex x (hsub x hx)) (fun x hx => hins x (hsub x hx)) it hin1
  have hdup2 : checkForDuplicates env (processPocketImport env store items uid mr).1 items uid =
      ([], items) :=
    checkForDuplicates_all_dup env _ items uid hq hall
  refine ⟨?_, ?_, ?_⟩
  · rw [processPocketImport_def env (processPocketImport env store items uid mr).1 items uid mr, hdup2]
    simp
  · rw [processPocketImport_def env (processPocketImport env store items uid mr).1 items uid mr, hdup2]
    simp
  · intro env' store' items' uid' mr' hnd
    rw [processPocketImport_def]
    exact foldl_importStep_nodup env' uid' mr' _ store' _ 0 hnd

/-- Witness for C1 at a concrete input: one item, empty store, benign
collaborators; the second run changes nothing and reports all duplicates. -/
theorem dedup_idempotent_second_run_witness :
    (processPocketImport ⟨fun _ => .ok "t", fun _ => none, fun _ => false⟩
        (processPocketImport ⟨fun _ => .ok "t", fun _ => none, fun _ => false⟩ []
          [⟨"http://a", "A"⟩] "me" 2).1 [⟨"http://a", "A"⟩] "me" 2).1 =
      (processPocketImport ⟨fun _ => .ok "t", fun _ => none, fun _ => false⟩ []
        [⟨"http://a", "A"⟩] "me" 2).1 ∧
    (processPocketImport ⟨fun _ => .ok "t", fun _ => none, fun _ => false⟩
        (processPocketImport ⟨fun _ => .ok "t", fun _ => none, fun _ => false⟩ []
          [⟨"http://a", "A"⟩] "me" 2).1 [⟨"http://a", "A"⟩] "me" 2).2.1.duplicates =
      (processPocketImport ⟨fun _ => .ok "t", fun _ => none, fun _ => false⟩
        (processPocketImport ⟨fun _ => .ok "t", fun _ => none, fun _ => false⟩ []
          [⟨"http://a", "A"⟩] "me" 2).1 [⟨"http://a", "A"⟩] "me" 2).2.1.total ∧
    (∀ (env' : Env) (store' : ArchiveStore) (items' : List Item) (uid' : String) (mr' : Nat),
      store'.Nodup → (processPocketImport env' store' items' uid' mr').1.Nodup) :=
  dedup_idempotent_second_run ⟨fun _ => .ok "t", fun _ => none, fun _ => false⟩ []
    [⟨"http://a", "A"⟩] "me" 2 (fun _ => rfl) (fun _ _ => ⟨"t", rfl⟩) (fun _ _ => rfl)

/-- C4: the summary arithmetic.  For every run,
`total = successful + failed + skipped`, `total` is the input row count,
pre-existing duplicates are counted in both `duplicates` and `skipped`
(`duplicates ≤ skipped`, `duplicates` = size of the duplicate partition);
and the spec's 3-row scenario (1 already archived, 2 succeeding) yields
`{total: 3, successful: 2, failed: 0, duplicates: 1, skipped: 1}`. -/
theorem import_summary_total_invariant :
    (∀ (env : Env) (store : ArchiveStore) (items : List Item) (uid : String) (mr : Nat),
      (processPocketImport env store items uid mr).2.1.total =
        (processPocketImport env store items uid mr).2.1.successful +
        (processPocketImport env store items uid mr).2.1.failed +
        (processPocketImport env store items uid mr).2.1.skipped ∧
      (processPocketImport env store items uid mr).2.1.total = items.length ∧
      (processPocketImport env store items uid mr).2.1.duplicates ≤
        (processPocketImport env store items uid mr).2.1.skipped ∧
      (processPocketImport env store items uid mr).2.1.duplicates =
        (checkForDuplicates env store items uid).2.length) ∧
    ((processPocketImport ⟨fun _ => .ok "t", fun _ => none, fun _ => false⟩
        [("me", "http://a")]
        [⟨"http://a", "A"⟩, ⟨"http://b", "B"⟩, ⟨"http://c", "C"⟩] "me" 2).2.1.total = 3 ∧
     (processPocketImport ⟨fun _ => .ok "t", fun _ => none, fun _ => false⟩
        [("me", "http://a")]
        [⟨"http://a", "A"⟩, ⟨"http://b", "B"⟩, ⟨"http://c", "C"⟩] "me" 2).2.1.successful = 2 ∧
     (processPocketImport ⟨fun _ => .ok "t", fun _ => none, fun _ => false⟩
        [("me", "http://a")]
        [⟨"http://a", "A"⟩, ⟨"http://b", "B"⟩, ⟨"http://c", "C"⟩] "me" 2).2.1.failed = 0 ∧
     (processPocketImport ⟨fun _ => .ok "t", fun _ => none, fun _ => false⟩
        [("me", "http://a")]
        [⟨"http://a", "A"⟩, ⟨"http://b", "B"⟩, ⟨"http://c", "C"⟩] "me" 2).2.1.duplicates = 1 ∧
     (processPocketImport ⟨fun _ => .ok "t", fun _ => none, fun _ => false⟩
        [("me", "http://a")]
        [⟨"http://a", "A"⟩, ⟨"http://b", "B"⟩, ⟨"http://c", "C"⟩] "me" 2).2.1.skipped = 1) := by
  constructor
  · intro env store items uid mr
    obtain ⟨h1, h2, h3, h4, _⟩ := foldl_importStep_counters env uid mr
      (checkForDuplicates env store items uid).1 store
      { total := items.length, successful := 0, failed := 0,
        skipped := (checkForDuplicates env store items uid).2.length,
        duplicates := (checkForDuplicates env store items uid).2.length,
        results := [] } 0
    have hpart : (checkForDuplicates env store items uid).1.length +
        (checkForDuplicates env store items uid).2.length = items.length := by
      rw [checkForDuplicates_fst, checkForDuplicates_snd]
      exact filter_partition_length items _
    rw [processPocketImport_def]
    refine ⟨?_, by simpa using h1, ?_, by simpa using h2⟩
    · rw [h1, h3]
      simp only
      omega
    · rw [h2]
      simpa using h4
  · refine ⟨by decide, by decide, by decide, by decide, by decide⟩

/-- C3 (counterexample): an item whose extraction always fails, imported
with `maxRetries = 2`, is recorded once with `success = false` but after
exactly ONE extraction attempt, not `maxRetries + 1 = 3`:
`archiveSinglePage` catches the extraction error and resolves, so the retry
loop's catch branch (and its backoff sleep) is dead code. -/
theorem retry_bound_counterexample :
    (processPocketImport ⟨fun _ => .error "boom", fun _ => none, fun _ => false⟩ []
      [⟨"http://x", "X"⟩] "me" 2).2.2 = 1 ∧
    (processPocketImport ⟨fun _ => .error "boom", fun _ => none, fun _ => false⟩ []
      [⟨"http://x", "X"⟩] "me" 2).2.1.results =
      [⟨false, false, none, some "http://x", some "boom"⟩] ∧
    (1 : Nat) ≠ 2 + 1 :=
  ⟨by decide, by decide, by decide⟩

/-- C3 (amended): an item whose extraction always fails (and whose URL is
not already archived) is recorded exactly once in `results` with
`success = false`, after exactly ONE extraction attempt — the retry loop
never re-enters because `archiveSinglePage` resolves instead of rejecting —
and the permanent failure never aborts the batch or the run: every processed
item contributes exactly one entry to `results`, so the run always completes
with a full summary. -/
theorem failed_item_single_attempt (env : Env) :
    (∀ (store : ArchiveStore) (uid : String) (item : Item) (mr : Nat) (e : String),
      (uid, item.url) ∉ store → env.ex item.url = .error e →
      runItem env store uid item mr =
        (store, ⟨false, false, none, some item.url, some e⟩, 1)) ∧
    (∀ (store : ArchiveStore) (items : List Item) (uid : String) (mr : Nat),
      (processPocketImport env store items uid mr).2.1.results.length =
        (checkForDuplicates env store items uid).1.length) := by
  constructor
  · intro store uid item mr e hmem hex
    rw [runItem_eq_asp]
    unfold archiveSinglePage
    simp [hmem, hex]
  · intro store items uid mr
    obtain ⟨_, _, _, _, h5⟩ := foldl_importStep_counters env uid mr
      (checkForDuplicates env store items uid).1 store
      { total := items.length, successful := 0, failed := 0,
        skipped := (checkForDuplicates env store items uid).2.length,
        duplicates := (checkForDuplicates env store items uid).2.length,
        results := [] } 0
    rw [processPocketImport_def]
    simpa using h5

/-- Witness for the amended C3 at a concrete input: a single always-failing
item with `maxRetries = 2` yields the one failure record after one attempt. -/
theorem failed_item_single_attempt_witness :
    runItem ⟨fun _ => .error "boom", fun _ => none, fun _ => false⟩ [] "me"
      ⟨"http://x", "X"⟩ 2 =
      ([], ⟨false, false, none, some "http://x", some "boom"⟩, 1) :=
  (failed_item_single_attempt ⟨fun _ => .error "boom", fun _ => none, fun _ => false⟩).1
    [] "me" ⟨"http://x", "X"⟩ 2 "boom" (by simp) rfl

/-- C10: `archiveSinglePage` is total at its public interface: for every
input it resolves to a result with a Boolean `success` field, and
* when an archive row for `(user, url)` exists it resolves
  `{success: true, skipped: true, archive}` with no insert performed;
* on extraction failure or insert failure it resolves
  `{success: false, url, error}` with the error message and no insert;
* on the success path it inserts exactly its own `(user, url)` row;
* whenever `success = false`, the store is unchanged and the result carries
  the url and an error message; whenever `skipped = true`, the store is
  unchanged and an archive payload is present. -/
theorem archiveSinglePage_total_interface (env : Env) (store : ArchiveStore)
    (uid url : String) :
    ((uid, url) ∈ store →
      archiveSinglePage env store uid url = (store, ⟨true, true, some url, none, none⟩, 0)) ∧
    (∀ e, env.ex url = .error e → (uid, url) ∉ store →
      archiveSinglePage env store uid url =
        (store, ⟨false, false, none, some url, some e⟩, 1)) ∧
    (∀ e t, env.ex url = .ok t → env.insertFails url = some e → (uid, url) ∉ store →
      archiveSinglePage env store uid url =
        (store, ⟨false, false, none, some url, some e⟩, 1)) ∧
    (∀ t, env.ex url = .ok t → env.insertFails url = none → (uid, url) ∉ store →
      archiveSinglePage env store uid url =
        (store ++ [(uid, url)], ⟨true, false, some url, none, none⟩, 1)) ∧
    ((archiveSinglePage env store uid url).2.1.success = false →
      (archiveSinglePage env store uid url).1 = store ∧
      (archiveSinglePage env store uid url).2.1.url = some url ∧
      (archiveSinglePage env store uid url).2.1.error.isSome = true) ∧
    ((archiveSinglePage env store uid url).2.1.skipped = true →
      (archiveSinglePage env store uid url).1 = store ∧
      (archiveSinglePage env store uid url).2.1.archive.isSome = true) := by
  by_cases hm : (uid, url) ∈ store
  · refine ⟨fun _ => by simp [archiveSinglePage, hm], ?_, ?_, ?_, ?_, ?_⟩
    · intro e _ hnot; exact absurd hm hnot
    · intro e t _ _ hnot; exact absurd hm hnot
    · intro t _ _ hnot; exact absurd hm hnot
    · intro hfail; simp [archiveSinglePage, hm] at hfail
    · intro _; exact ⟨by simp [archiveSinglePage, hm], by simp [archiveSinglePage, hm]⟩
  · cases hex : env.ex url with
    | error e' =>
      refine ⟨fun h => absurd h hm, ?_, ?_, ?_, ?_, ?_⟩
      · intro e he _
        injection he with h'
        subst h'
        simp [archiveSinglePage, hm, hex]
      · intro e t ht _ _; simp at ht
      · intro t ht _ _; simp at ht
      · intro _; exact ⟨by simp [archiveSinglePage, hm, hex],
          by simp [archiveSinglePage, hm, hex], by simp [archiveSinglePage, hm, hex]⟩
      · intro hskip; simp [archiveSinglePage, hm, hex] at hskip
    | ok t' =>
      cases hins : env.insertFails url with
      | some e' =>
        refine ⟨fun h => absurd h hm, ?_, ?_, ?_, ?_, ?_⟩
        · intro e he _; simp at he
        · intro e t _ hi _
          injection hi with h'
          subst h'
          simp [archiveSinglePage, hm, hex, hins]
        · intro t _ hi _; simp at hi
        · intro _; exact ⟨by simp [archiveSinglePage, hm, hex, hins],
            by simp [archiveSinglePage, hm, hex, hins],
            by simp [archiveSinglePage, hm, hex, hins]⟩
        · intro hskip; simp [archiveSinglePage, hm, hex, hins] at hskip
      | none =>
        refine ⟨fun h => absurd h hm, ?_, ?_, ?_, ?_, ?_⟩
        · intro e he _; simp at he
        · intro e t _ hi _; simp at hi
        · intro t _ _ _; simp [archiveSinglePage, hm, hex, hins]
        · intro hfail; simp [archiveSinglePage, hm, hex, hins] at hfail
        · intro hskip; simp [archiveSinglePage, hm, hex, hins] at hskip

/-- Witness for C10 at a concrete input: the extraction-failure shape. -/
theorem archiveSinglePage_total_interface_witness :
    archiveSinglePage ⟨fun _ => .error "x", fun _ => none, fun _ => false⟩ [] "me" "u" =
      ([], ⟨false, false, none, some "u", some "x"⟩, 1) :=
  (archiveSinglePage_total_interface ⟨fun _ => .error "x", fun _ => none, fun _ => false⟩
    [] "me" "u").2.1 "x" rfl (by simp)

/-! ## Shared-embedding pipeline lemmas -/

/-- The modelled digest is injective in the chunk content for a fixed URL. -/
theorem hashContent_inj (url c1 c2 : List Char) (h : hashContent url c1 = hashContent url c2) :
    c1 = c2 := by
  unfold hashContent at h
  have h' := List.append_cancel_left h
  injection h'

/-- A missed lookup means the identity is absent from the store. -/
theorem findContent_eq_none_iff (st : EmbState) (h : List Char) (i : Nat) :
    findContent st h i = none ↔ (h, i) ∉ contentKeys st := by
  unfold findContent contentKeys
  rw [List.find?_eq_none]
  constructor
  · intro hall hmem
    rcases List.mem_map.mp hmem with ⟨r, hr, hk⟩
    obtain ⟨h1, h2⟩ := Prod.mk.injEq .. ▸ hk
    have := hall r hr
    simp [h1, h2] at this
  · intro hnotmem r hr hp
    simp only [Bool.and_eq_true, decide_eq_true_eq] at hp
    exact hnotmem (List.mem_map.mpr ⟨r, hr, by simp [hp.1, hp.2]⟩)

/-- A hit means the identity is present in the store. -/
theorem findContent_some_mem (st : EmbState) (h : List Char) (i : Nat) (row : ContentRow)
    (hf : findContent st h i = some row) : (h, i) ∈ contentKeys st := by
  have hmem := List.mem_of_find?_eq_some hf
  have hp := List.find?_some hf
  simp only [Bool.and_eq_true, decide_eq_true_eq] at hp
  exact List.mem_map.mpr ⟨row, hmem, by simp [hp.1, hp.2]⟩

/-- One chunk step never removes content identities. -/
theorem embedChunkStep_keys_mono (env : EmbEnv) (a : Archive) (st : EmbState)
    (log : List (List Char × Nat)) (c : Chunk) (k : List Char × Nat)
    (hk : k ∈ contentKeys st) : k ∈ contentKeys (embedChunkStep env a st log c).1 := by
  cases hf : findContent st (hashContent a.url c.content) c.index with
  | some row => simpa [embedChunkStep, hf, contentKeys] using hk
  | none =>
    cases hg : env.gen c.content with
    | none => simpa [embedChunkStep, hf, hg, contentKeys] using hk
    | some v =>
      by_cases hr : env.rpcFails (hashContent a.url c.content) c.index
      · simpa [embedChunkStep, hf, hg, hr, contentKeys] using hk
      · simp only [embedChunkStep, hf, hg, hr, Bool.false_eq_true, if_false]
        simpa [contentKeys, List.map_append] using Or.inl hk

/-- One chunk step either reuses an existing row without logging a provider
call, or logs exactly one provider call for an identity that was absent. -/
theorem embedChunkStep_log (env : EmbEnv) (a : Archive) (st : EmbState)
    (log : List (List Char × Nat)) (c : Chunk) :
    ((embedChunkStep env a st log c).2 = log ∧
      (hashContent a.url c.content, c.index) ∈ contentKeys st) ∨
    ((embedChunkStep env a st log c).2 = log ++ [(hashContent a.url c.content, c.index)] ∧
      (hashContent a.url c.content, c.index) ∉ contentKeys st) := by
  cases hf : findContent st (hashContent a.url c.content) c.index with
  | some row => exact Or.inl ⟨by simp [embedChunkStep, hf], findContent_some_mem st _ _ row hf⟩
  | none =>
    have habs := (findContent_eq_none_iff st _ _).mp hf
    cases hg : env.gen c.content with
    | none => exact Or.inr ⟨by simp [embedChunkStep, hf, hg], habs⟩
    | some v =>
      by_cases hr : env.rpcFails (hashContent a.url c.content) c.index
      · exact Or.inr ⟨by simp [embedChunkStep, hf, hg, hr], habs⟩
      · exact Or.inr ⟨by simp [embedChunkStep, hf, hg, hr], habs⟩

/-- One chunk step changes the content table only by (possibly) adding its
own chunk's identity, and only when the provider returned an embedding. -/
theorem embedChunkStep_added_keys (env : EmbEnv) (a : Archive) (st : EmbState)
    (log : List (List Char × Nat)) (c : Chunk) (k : List Char × Nat)
    (hk : k ∈ contentKeys (embedChunkStep env a st log c).1) :
    k ∈ contentKeys st ∨
    ((env.gen c.content).isSome ∧ k = (hashContent a.url c.content, c.index)) := by
  cases hf : findContent st (hashContent a.url c.content) c.index with
  | some row =>
    simp only [embedChunkStep, hf] at hk
    exact Or.inl (by simpa [contentKeys] using hk)
  | none =>
    cases hg : env.gen c.content with
    | none =>
      simp only [embedChunkStep, hf, hg] at hk
      exact Or.inl (by simpa [contentKeys] using hk)
    | some v =>
      by_cases hr : env.rpcFails (hashContent a.url c.content) c.index
      · simp only [embedChunkStep, hf, hg, hr, if_true] at hk
        exact Or.inl (by simpa [contentKeys] using hk)
      · simp only [embedChunkStep, hf, hg, hr, Bool.false_eq_true, if_false] at hk
        simp only [contentKeys, List.map_append, List.mem_append] at hk
        rcases hk with hk | hk
        · exact Or.inl hk
        · simp at hk
          exact Or.inr ⟨by simp [hg], hk⟩

/-- When the provider returns an embedding and the RPC does not fail, the
chunk's identity is present after its step (found or freshly created). -/
theorem embedChunkStep_self_stored (env : EmbEnv) (a : Archive) (st : EmbState)
    (log : List (List Char × Nat)) (c : Chunk)
    (hg : (env.gen c.content).isSome)
    (hr : env.rpcFails (hashContent a.url c.content) c.index = false) :
    (hashContent a.url c.content, c.index) ∈ contentKeys (embedChunkStep env a st log c).1 := by
  cases hf : findContent st (hashContent a.url c.content) c.index with
  | some row =>
    simp only [embedChunkStep, hf]
    simpa [contentKeys] using findContent_some_mem st _ _ row hf
  | none =>
    obtain ⟨v, hv⟩ := Option.isSome_iff_exists.mp hg
    simp only [embedChunkStep, hf, hv, hr, Bool.false_eq_true, if_false]
    simp [contentKeys, List.map_append]

/-- Fold monotonicity: the chunk loop never removes content identities. -/
theorem embedFoldl_keys_mono (env : EmbEnv) (a : Archive) :
    ∀ (chunks : List Chunk) (st : EmbState) (log : List (List Char × Nat))
      (k : List Char × Nat), k ∈ contentKeys st →
      k ∈ contentKeys ((chunks.foldl (fun p c => embedChunkStep env a p.1 p.2 c) (st, log)).1) := by
  intro chunks
  induction chunks with
  | nil => intro st log k hk; simpa using hk
  | cons c rest ih =>
    intro st log k hk
    rw [List.foldl_cons]
    exact ih _ _ k (embedChunkStep_keys_mono env a st log c k hk)

/-- Every provider call logged by the chunk loop is for an identity that was
absent from the content store when the loop started (no hypotheses on the
environment: this is pure check-before-call). -/
theorem embedFoldl_log_not_preexisting (env : EmbEnv) (a : Archive) :
    ∀ (chunks : List Chunk) (st : EmbState) (log : List (List Char × Nat))
      (k : List Char × Nat),
      k ∈ (chunks.foldl (fun p c => embedChunkStep env a p.1 p.2 c) (st, log)).2 →
      k ∈ log ∨ k ∉ contentKeys st := by
  intro chunks
  induction chunks with
  | nil => intro st log k hk; exact Or.inl (by simpa using hk)
  | cons c rest ih =>
    intro st log k hk
    rw [List.foldl_cons] at hk
    dsimp only at hk
    rcases hstep : embedChunkStep env a st log c with ⟨st1, log1⟩
    rw [hstep] at hk
    have hmono : ∀ k2, k2 ∈ contentKeys st → k2 ∈ contentKeys st1 := by
      intro k2 hk2
      have := embedChunkStep_keys_mono env a st log c k2 hk2
      rwa [hstep] at this
    have hlog := embedChunkStep_log env a st log c
    rw [hstep] at hlog
    dsimp only at hlog
    rcases hlog with ⟨hlog, _⟩ | ⟨hlog, habs⟩
    · subst hlog
      rcases ih st1 log1 k hk with hin | hout
      · exact Or.inl hin
      · exact Or.inr (fun hmem0 => hout (hmono k hmem0))
    · subst hlog
      rcases ih st1 _ k hk with hin | hout
      · rcases List.mem_append.mp hin with hin | hin
        · exact Or.inl hin
        · simp only [List.mem_singleton] at hin
          subst hin
          exact Or.inr habs
      · exact Or.inr (fun hmem0 => hout (hmono k hmem0))

/-- Under a total provider and a non-failing store RPC, the chunk loop keeps
its invariant: every logged identity is stored, and no identity is logged
twice. -/
theorem embedFoldl_log_nodup (env : EmbEnv) (a : Archive)
    (hgen : ∀ t, (env.gen t).isSome)
    (hrpc : ∀ h i, env.rpcFails h i = false) :
    ∀ (chunks : List Chunk) (st : EmbState) (log : List (List Char × Nat)),
      (∀ k ∈ log, k ∈ contentKeys st) → log.Nodup →
      ((chunks.foldl (fun p c => embedChunkStep env a p.1 p.2 c) (st, log)).2.Nodup ∧
       (∀ k ∈ (chunks.foldl (fun p c => embedChunkStep env a p.1 p.2 c) (st, log)).2,
         k ∈ contentKeys
           ((chunks.foldl (fun p c => embedChunkStep env a p.1 p.2 c) (st, log)).1))) := by
  intro chunks
  induction chunks with
  | nil => intro st log hstored hnd; exact ⟨by simpa using hnd, by simpa using hstored⟩
  | cons c rest ih =>
    intro st log hstored hnd
    rw [List.foldl_cons]
    dsimp only
    rcases hstep : embedChunkStep env a st log c with ⟨st1, log1⟩
    have hmono : ∀ k2, k2 ∈ contentKeys st → k2 ∈ contentKeys st1 := by
      intro k2 hk2
      have := embedChunkStep_keys_mono env a st log c k2 hk2
      rwa [hstep] at this
    have hself : (hashContent a.url c.content, c.index) ∈ contentKeys st1 := by
      have := embedChunkStep_self_stored env a st log c (hgen c.content)
        (hrpc (hashContent a.url c.content) c.index)
      rwa [hstep] at this
    have hlog := embedChunkStep_log env a st log c
    rw [hstep] at hlog
    dsimp only at hlog
    rcases hlog with ⟨hlog, _⟩ | ⟨hlog, habs⟩
    · subst hlog
      exact ih st1 log1 (fun k hk => hmono k (hstored k hk)) hnd
    · subst hlog
      refine ih st1 _ ?_ ?_
      · intro k hk
        rcases List.mem_append.mp hk with hk | hk
        · exact hmono k (hstored k hk)
        · simp only [List.mem_singleton] at hk
          subst hk
          exact hself
      · refine List.Nodup.append hnd (List.nodup_singleton _) ?_
        intro k hk1 hk2
        simp only [List.mem_singleton] at hk2
        subst hk2
        exact habs (hstored _ hk1)

/-- The chunk loop adds only identities of chunks whose provider call
returned an embedding. -/
theorem embedFoldl_added_keys (env : EmbEnv) (a : Archive) :
    ∀ (chunks : List Chunk) (st : EmbState) (log : List (List Char × Nat))
      (k : List Char × Nat),
      k ∈ contentKeys ((chunks.foldl (fun p c => embedChunkStep env a p.1 p.2 c) (st, log)).1) →
      k ∈ contentKeys st ∨
      ∃ c ∈ chunks, (env.gen c.content).isSome ∧
        k = (hashContent a.url c.content, c.index) := by
  intro chunks
  induction chunks with
  | nil => intro st log k hk; exact Or.inl (by simpa using hk)
  | cons c rest ih =>
    intro st log k hk
    rw [List.foldl_cons] at hk
    dsimp only at hk
    rcases hstep : embedChunkStep env a st log c with ⟨st1, log1⟩
    rw [hstep] at hk
    rcases ih st1 log1 k hk with hin | ⟨c', hc', hsome, hkey⟩
    · have hin' : k ∈ contentKeys (embedChunkStep env a st log c).1 := by
        rw [hstep]; exact hin
      rcases embedChunkStep_added_keys env a st log c k hin' with hin0 | ⟨hsome, hkey⟩
      · exact Or.inl hin0
      · exact Or.inr ⟨c, List.mem_cons_self _ _, hsome, hkey⟩
    · exact Or.inr ⟨c', List.mem_cons_of_mem _ hc', hsome, hkey⟩

/-- Under a non-failing store RPC, every chunk whose provider call returns
an embedding ends up stored, regardless of other chunks' outcomes. -/
theorem embedFoldl_covers (env : EmbEnv) (a : Archive)
    (hrpc : ∀ h i, env.rpcFails h i = false) :
    ∀ (chunks : List Chunk) (st : EmbState) (log : List (List Char × Nat))
      (c : Chunk), c ∈ chunks → (env.gen c.content).isSome →
      (hashContent a.url c.content, c.index) ∈
        contentKeys ((chunks.foldl (fun p c => embedChunkStep env a p.1 p.2 c) (st, log)).1) := by
  intro chunks
  induction chunks with
  | nil => intro st log c hc; simp at hc
  | cons c0 rest ih =>
    intro st log c hc hsome
    rw [List.foldl_cons]
    dsimp only
    rcases hstep : embedChunkStep env a st log c0 with ⟨st1, log1⟩
    rcases List.mem_cons.mp hc with rfl | hc'
    · have hself : (hashContent a.url c.content, c.index) ∈ contentKeys st1 := by
        have := embedChunkStep_self_stored env a st log c hsome
          (hrpc (hashContent a.url c.content) c.index)
        rwa [hstep] at this
      exact embedFoldl_keys_mono env a rest st1 log1 _ hself
    · exact ih st1 log1 c hc' hsome

/-- `processArchive` unfolded on a terminating chunking. -/
theorem processArchive_def (env : EmbEnv) (st : EmbState) (a : Archive) (fuel : Nat)
    (chunks : List Chunk) (h : chunkTextFuel (fullTextOf a) 1500 300 fuel = some chunks) :
    processArchive env st a fuel =
      some (chunks.foldl (fun p c => embedChunkStep env a p.1 p.2 c) (st, [])) := by
  unfold processArchive
  rw [h]

/-- The per-archive guarantees of the shared-embedding pipeline under a
total provider and non-failing RPC: every logged provider call is for an
identity that is stored afterwards and was absent before, no identity is
ever logged twice within the run, and stored identities persist. -/
theorem processArchive_props (env : EmbEnv)
    (hgen : ∀ t, (env.gen t).isSome)
    (hrpc : ∀ h i, env.rpcFails h i = false)
    (st : EmbState) (a : Archive) (fuel : Nat) (st' : EmbState)
    (log : List (List Char × Nat))
    (h : processArchive env st a fuel = some (st', log)) :
    (∀ k ∈ log, k ∈ contentKeys st' ∧ k ∉ contentKeys st) ∧ log.Nodup ∧
    (∀ k ∈ contentKeys st, k ∈ contentKeys st') := by
  cases hchunk : chunkTextFuel (fullTextOf a) 1500 300 fuel with
  | none => rw [processArchive, hchunk] at h; simp at h
  | some chunks =>
    rw [processArchive_def env st a fuel chunks hchunk] at h
    have hpair := Option.some.inj h
    have hst : st' = (chunks.foldl (fun p c => embedChunkStep env a p.1 p.2 c) (st, [])).1 :=
      (congrArg Prod.fst hpair).symm
    have hlog : log = (chunks.foldl (fun p c => embedChunkStep env a p.1 p.2 c) (st, [])).2 :=
      (congrArg Prod.snd hpair).symm
    obtain ⟨hnd, hstored⟩ := embedFoldl_log_nodup env a hgen hrpc chunks st []
      (by intro k hk; simp at hk) List.nodup_nil
    subst hst hlog
    refine ⟨?_, hnd, ?_⟩
    · intro k hk
      refine ⟨hstored k hk, ?_⟩
      rcases embedFoldl_log_not_preexisting env a chunks st [] k hk with hin | hout
      · simp at hin
      · exact hout
    · intro k hk
      exact embedFoldl_keys_mono env a chunks st [] k hk

/-- C2 (counterexample): the provider CAN be invoked twice for the same
unique `(contentHash, chunkIndex)`: when it returns no embedding for the
first user's chunk, the chunk is not stored, so the second user's import of
the same URL and content misses the lookup and invokes the provider again
for the very same identity. -/
theorem shared_embedding_reuse_counterexample :
    processMany ⟨fun _ => none, fun _ _ => false⟩ ⟨[], []⟩
      [⟨1, "u1", ['y'], ['T'], [], ['B'], []⟩, ⟨2, "u2", ['y'], ['T'], [], ['B'], []⟩] 2 =
      some (⟨[], []⟩,
        [(['y', ':', 'T', '\n', '\n', '\n', '\n', 'B'], 0),
         (['y', ':', 'T', '\n', '\n', '\n', '\n', 'B'], 0)]) ∧
    ¬ ([(['y', ':', 'T', '\n', '\n', '\n', '\n', 'B'], 0),
        (['y', ':', 'T', '\n', '\n', '\n', '\n', 'B'], 0)] :
        List (List Char × Nat)).Nodup :=
  ⟨by decide, by decide⟩

/-- C2 (amended): for every chunk whose `(contentHash, chunkIndex)` already
exists in the content store, the pipeline proceeds without invoking the
embedding provider (no hypotheses on the environment — this is pure
check-before-call); and PROVIDED every provider invocation returns an
embedding and every `get_or_create_content` RPC succeeds, the provider is
invoked at most once per unique `(contentHash, chunkIndex)` across any
sequence of archive ingestions by any users. -/
theorem shared_embedding_reuse_amended (env : EmbEnv) :
    (∀ (st : EmbState) (a : Archive) (fuel : Nat) (st' : EmbState)
        (log : List (List Char × Nat)) (k : List Char × Nat),
      processArchive env st a fuel = some (st', log) →
      k ∈ contentKeys st → k ∉ log) ∧
    ((∀ t, (env.gen t).isSome) → (∀ h i, env.rpcFails h i = false) →
      ∀ (archives : List Archive) (st : EmbState) (fuel : Nat) (st' : EmbState)
        (log : List (List Char × Nat)),
        processMany env st archives fuel = some (st', log) →
        ((∀ k ∈ log, k ∉ contentKeys st) ∧ log.Nodup ∧
         (∀ k ∈ contentKeys st, k ∈ contentKeys st'))) := by
  constructor
  · intro st a fuel st' log k hproc hmem hlog
    cases hchunk : chunkTextFuel (fullTextOf a) 1500 300 fuel with
    | none => rw [processArchive, hchunk] at hproc; simp at hproc
    | some chunks =>
      rw [processArchive_def env st a fuel chunks hchunk] at hproc
      have hpair := Option.some.inj hproc
      have hlogeq : log =
          (chunks.foldl (fun p c => embedChunkStep env a p.1 p.2 c) (st, [])).2 :=
        (congrArg Prod.snd hpair).symm
      rw [hlogeq] at hlog
      rcases embedFoldl_log_not_preexisting env a chunks st [] k hlog with hin | hout
      · simp at hin
      · exact hout hmem
  · intro hgen hrpc archives
    induction archives with
    | nil =>
      intro st fuel st' log h
      rw [processMany] at h
      have hpair := Option.some.inj h
      have hst : st' = st := (congrArg Prod.fst hpair).symm
      have hlog : log = [] := (congrArg Prod.snd hpair).symm
      subst hst hlog
      exact ⟨by intro k hk; simp at hk, List.nodup_nil, fun k hk => hk⟩
    | cons a rest ih =>
      intro st fuel st' log h
      rw [processMany] at h
      cases hpa : processArchive env st a fuel with
      | none => rw [hpa] at h; simp at h
      | some p =>
        rw [hpa] at h
        dsimp only at h
        cases hpm : processMany env p.1 rest fuel with
        | none => rw [hpm] at h; simp at h
        | some q =>
          rw [hpm] at h
          have hpair := Option.some.inj h
          have hst : st' = q.1 := (congrArg Prod.fst hpair).symm
          have hlog : log = p.2 ++ q.2 := (congrArg Prod.snd hpair).symm
          subst hst hlog
          obtain ⟨hstored1, hnd1, hmono1⟩ :=
            processArchive_props env hgen hrpc st a fuel p.1 p.2 (by rw [hpa])
          obtain ⟨hfresh2, hnd2, hmono2⟩ := ih p.1 fuel q.1 q.2 (by rw [hpm])
          refine ⟨?_, ?_, fun k hk => hmono2 k (hmono1 k hk)⟩
          · intro k hk
            rcases List.mem_append.mp hk with hk | hk
            · exact (hstored1 k hk).2
            · intro hmem0
              exact hfresh2 k hk (hmono1 k hmem0)
          · refine List.Nodup.append hnd1 hnd2 ?_
            intro k hk1 hk2
            exact hfresh2 k hk2 ((hstored1 k hk1).1)

/-- Witness for the amended C2 at a concrete input: one archive ingested
with a working provider; its one chunk is logged once, was not pre-existing,
and nothing breaks. -/
theorem shared_embedding_reuse_amended_witness :
    (∀ k ∈ ([(['y', ':', 'T', '\n', '\n', '\n', '\n', 'B'], 0)] : List (List Char × Nat)),
      k ∉ contentKeys ⟨[], []⟩) ∧
    ([(['y', ':', 'T', '\n', '\n', '\n', '\n', 'B'], 0)] : List (List Char × Nat)).Nodup ∧
    (∀ k ∈ contentKeys ⟨[], []⟩, k ∈ contentKeys
      ⟨[⟨0, ['y', ':', 'T', '\n', '\n', '\n', '\n', 'B'], 0,
          ['T', '\n', '\n', '\n', '\n', 'B'], some [1]⟩],
       [⟨"u1", 0, 1, []⟩]⟩) :=
  (shared_embedding_reuse_amended ⟨fun _ => some [1], fun _ _ => false⟩).2
    (fun _ => rfl) (fun _ _ => rfl)
    [⟨1, "u1", ['y'], ['T'], [], ['B'], []⟩] ⟨[], []⟩ 2
    ⟨[⟨0, ['y', ':', 'T', '\n', '\n', '\n', '\n', 'B'], 0,
        ['T', '\n', '\n', '\n', '\n', 'B'], some [1]⟩],
     [⟨"u1", 0, 1, []⟩]⟩
    [(['y', ':', 'T', '\n', '\n', '\n', '\n', 'B'], 0)] (by decide)

/-- C8 (counterexample): when the provider returns no embedding for a chunk,
the chunk is NOT stored in the content store (and no user link is created):
ingesting an archive whose single chunk gets no embedding leaves the content
store and the link table exactly empty, while the provider call is logged. -/
theorem unavailable_chunk_counterexample :
    processArchive ⟨fun _ => none, fun _ _ => false⟩ ⟨[], []⟩
      ⟨1, "u1", ['y'], ['T'], [], ['B'], []⟩ 2 =
      some (⟨[], []⟩, [(['y', ':', 'T', '\n', '\n', '\n', '\n', 'B'], 0)]) ∧
    (['y', ':', 'T', '\n', '\n', '\n', '\n', 'B'], 0) ∉ contentKeys ⟨[], []⟩ :=
  ⟨by decide, by decide⟩

/-- C8 (amended): when the embedding provider returns no embedding for some
chunk, that chunk is NOT stored in the content store (its identity is absent
afterwards, provided it was absent before), and processing of the document's
remaining chunks continues: every chunk of the same document whose provider
call does return an embedding is stored (given the store RPC does not
fail), regardless of the other chunks' failures. -/
theorem unavailable_chunk_soft_failure (env : EmbEnv) (a : Archive) :
    (∀ (st : EmbState) (fuel : Nat) (st' : EmbState) (log : List (List Char × Nat))
        (c : Chunk) (chunks : List Chunk),
      chunkTextFuel (fullTextOf a) 1500 300 fuel = some chunks →
      processArchive env st a fuel = some (st', log) →
      c ∈ chunks → env.gen c.content = none →
      (hashContent a.url c.content, c.index) ∉ contentKeys st →
      (hashContent a.url c.content, c.index) ∉ contentKeys st') ∧
    ((∀ h i, env.rpcFails h i = false) →
      ∀ (st : EmbState) (fuel : Nat) (st' : EmbState) (log : List (List Char × Nat))
        (c : Chunk) (chunks : List Chunk),
        chunkTextFuel (fullTextOf a) 1500 300 fuel = some chunks →
        processArchive env st a fuel = some (st', log) →
        c ∈ chunks → (env.gen c.content).isSome →
        (hashContent a.url c.content, c.index) ∈ contentKeys st') := by
  constructor
  · intro st fuel st' log c chunks hchunk hproc hc hnone habs hmem
    rw [processArchive_def env st a fuel chunks hchunk] at hproc
    have hpair := Option.some.inj hproc
    have hst : st' = (chunks.foldl (fun p c => embedChunkStep env a p.1 p.2 c) (st, [])).1 :=
      (congrArg Prod.fst hpair).symm
    rw [hst] at hmem
    rcases embedFoldl_added_keys env a chunks st [] _ hmem with hin | ⟨c', hc', hsome, hkey⟩
    · exact habs hin
    · have hhash : hashContent a.url c.content = hashContent a.url c'.content := by
        have := congrArg Prod.fst hkey
        simpa using this
      have hcontent : c.content = c'.content := hashContent_inj a.url _ _ hhash
      rw [← hcontent] at hsome
      rw [hnone] at hsome
      simp at hsome
  · intro hrpc st fuel st' log c chunks hchunk hproc hc hsome
    rw [processArchive_def env st a fuel chunks hchunk] at hproc
    have hpair := Option.some.inj hproc
    have hst : st' = (chunks.foldl (fun p c => embedChunkStep env a p.1 p.2 c) (st, [])).1 :=
      (congrArg Prod.fst hpair).symm
    rw [hst]
    exact embedFoldl_covers env a hrpc chunks st [] c hc hsome

/-- Witness for the amended C8 at a concrete input: a working provider and a
one-chunk document — the chunk's identity is present after ingestion. -/
theorem unavailable_chunk_soft_failure_witness :
    (['y', ':', 'T', '\n', '\n', '\n', '\n', 'B'], 0) ∈ contentKeys
      ⟨[⟨0, ['y', ':', 'T', '\n', '\n', '\n', '\n', 'B'], 0,
          ['T', '\n', '\n', '\n', '\n', 'B'], some [1]⟩],
       [⟨"u1", 0, 1, []⟩]⟩ :=
  (unavailable_chunk_soft_failure ⟨fun _ => some [1], fun _ _ => false⟩
      ⟨1, "u1", ['y'], ['T'], [], ['B'], []⟩).2
    (fun _ _ => rfl) ⟨[], []⟩ 2
    ⟨[⟨0, ['y', ':', 'T', '\n', '\n', '\n', '\n', 'B'], 0,
        ['T', '\n', '\n', '\n', '\n', 'B'], some [1]⟩],
     [⟨"u1", 0, 1, []⟩]⟩
    [(['y', ':', 'T', '\n', '\n', '\n', '\n', 'B'], 0)]
    ⟨['T', '\n', '\n', '\n', '\n', 'B'], 0⟩
    [⟨['T', '\n', '\n', '\n', '\n', 'B'], 0⟩]
    (by decide) (by decide) (by decide) rfl
